import Mathlib

/-!
# Verification of the GoGoGo terminal-relay subsystem

Shallow embedding, in Lean 4, of the state and operations of the GoGoGo
terminal relay (a CLI tool that forwards one PTY session to browser clients
over a tunnel).  Each definition mirrors one function or handler of the
TypeScript source:

* the sequenced output log and its append handler (`onPTYData` in
  `web-server.ts`), including clear-screen truncation and high-water trim;
* the `sync` reply logic of the WebSocket message handler;
* size arbitration (`calculateMinSize` / `applyMinSize`);
* the PTY supervisor (`spawnPTY` / `resizePTY` in `pty.ts`);
* the tunnel subprocess close handler and `stopTunnel`
  (`cloudflare-tunnel.ts`);
* the idempotent `cleanup` of `session.ts`;
* the per-connection message rate limiter;
* `safeEqual` token comparison.

JavaScript strings are modelled as `List Char` (terminal chunks) or as
`List Nat` of code units (`safeEqual`); JS numbers that are in practice
non-negative integers are modelled as `Nat`.
-/

namespace GoGoGo

/-! ## Output log (`web-server.ts`)

`interface BufferEntry { seq: number; data: string; }` with
`let outputBuffer: BufferEntry[] = []; let nextSeq = 1;`. -/

structure BufferEntry where
  seq : Nat
  data : List Char
  deriving Repr, DecidableEq

structure LogState where
  outputBuffer : List BufferEntry
  nextSeq : Nat
  deriving Repr, DecidableEq

/-- Initial module state: `outputBuffer = []`, `nextSeq = 1`. -/
def initLogState : LogState := ⟨[], 1⟩

def MAX_BUFFER_SIZE : Nat := 5000
def BUFFER_TRIM_SIZE : Nat := 3000

/-- `'\x1b'`, the ESC character starting every clear-screen sequence. -/
def ESC : Char := '\x1b'

/-- The alternatives of `CLEAR_SCREEN_RE = /\x1b\[[23]J|\x1bc/`. -/
def clear2J : List Char := [ESC, '[', '2', 'J']
def clear3J : List Char := [ESC, '[', '3', 'J']
def clearC : List Char := [ESC, 'c']

def clearStrings : List (List Char) := [clear2J, clear3J, clearC]

/-- One step of the regex engine at the current position: if one of the
alternatives of `CLEAR_SCREEN_RE` matches as a prefix of `s`, return the
remainder of `s` after the match (the alternatives are mutually exclusive at
any one position, so alternation order is irrelevant). -/
def matchClearAt (s : List Char) : Option (List Char) :=
  if clear2J.isPrefixOf s then some (s.drop 4)
  else if clear3J.isPrefixOf s then some (s.drop 4)
  else if clearC.isPrefixOf s then some (s.drop 2)
  else none

theorem matchClearAt_decomp {s rem : List Char} (h : matchClearAt s = some rem) :
    ∃ c, c ∈ clearStrings ∧ s = c ++ rem := by
  unfold matchClearAt at h
  split_ifs at h with h1 h2 h3
  · refine ⟨clear2J, by simp [clearStrings], ?_⟩
    obtain ⟨t, rfl⟩ := List.isPrefixOf_iff_prefix.mp h1
    have ht : rem = t := by
      simpa [clear2J, List.drop] using (Option.some.inj h).symm
    simp [ht]
  · refine ⟨clear3J, by simp [clearStrings], ?_⟩
    obtain ⟨t, rfl⟩ := List.isPrefixOf_iff_prefix.mp h2
    have ht : rem = t := by
      simpa [clear3J, List.drop] using (Option.some.inj h).symm
    simp [ht]
  · refine ⟨clearC, by simp [clearStrings], ?_⟩
    obtain ⟨t, rfl⟩ := List.isPrefixOf_iff_prefix.mp h3
    have ht : rem = t := by
      simpa [clearC, List.drop] using (Option.some.inj h).symm
    simp [ht]

theorem matchClearAt_length {s rem : List Char} (h : matchClearAt s = some rem) :
    rem.length < s.length := by
  obtain ⟨c, hc, rfl⟩ := matchClearAt_decomp h
  have : 0 < c.length := by
    fin_cases hc <;> simp [clear2J, clear3J, clearC]
  simp only [List.length_append]
  omega

/-- `CLEAR_SCREEN_RE.test(data)`: does any alternative occur in `s`?  The
regex engine scans positions left to right. -/
def testClear : List Char → Bool
  | [] => false
  | c :: rest => (matchClearAt (c :: rest)).isSome || testClear rest

/-- `[...data.matchAll(/\x1b\[[23]J|\x1bc/g)]` followed by taking the text
after the final match: left-to-right, non-overlapping scan, returning
`some after` where `after` is the remainder of the string after the last
match, or `none` when there is no match at all. -/
def afterLastClear (s : List Char) : Option (List Char) :=
  match s with
  | [] => none
  | c :: rest =>
    match h : matchClearAt (c :: rest) with
    | some rem =>
      some (match afterLastClear rem with
            | some r => r
            | none => rem)
    | none => afterLastClear rest
termination_by s.length
decreasing_by
  · exact matchClearAt_length h
  · simp

/-- The `onPTYData` handler of `startWebServer` (web-server.ts): assign the
next sequence number, push the chunk, then either truncate at the last
clear-screen sequence or trim past the high-water mark.  `slice(-n)` on an
array longer than `n` keeps the last `n` entries. -/
def appendChunk (st : LogState) (data : List Char) : LogState :=
  let seq := st.nextSeq
  let buf := st.outputBuffer ++ [⟨seq, data⟩]
  if testClear data then
    let after := (afterLastClear data).getD []
    if after.isEmpty then ⟨[], seq + 1⟩ else ⟨[⟨seq, after⟩], seq + 1⟩
  else if MAX_BUFFER_SIZE < buf.length then
    ⟨buf.drop (buf.length - BUFFER_TRIM_SIZE), seq + 1⟩
  else
    ⟨buf, seq + 1⟩

/-! ### C1: retained sequence numbers are contiguous -/

/-- Invariant of the output log: the retained entries carry consecutive
sequence numbers starting at some `s ≥ 1`, and the entry after the newest
would receive `nextSeq`. -/
def LogInv (st : LogState) : Prop :=
  ∃ s, 1 ≤ s ∧ s + st.outputBuffer.length = st.nextSeq ∧
    st.outputBuffer.map (·.seq) = List.range' s st.outputBuffer.length

theorem logInv_init : LogInv initLogState :=
  ⟨1, le_refl 1, by simp [initLogState], by simp [initLogState]⟩

theorem map_seq_drop_range' (l : List BufferEntry) (s k : Nat)
    (h : l.map (·.seq) = List.range' s l.length) (hk : k ≤ l.length) :
    (l.drop k).map (·.seq) = List.range' (s + k) (l.length - k) := by
  obtain ⟨m, hm⟩ : ∃ m, l.length = k + m := ⟨l.length - k, by omega⟩
  rw [List.map_drop, h, hm, Nat.add_comm k m, ← List.range'_append_1,
    List.drop_left' (by simp), Nat.add_sub_cancel]

theorem logInv_appendChunk {st : LogState} (h : LogInv st) (data : List Char) :
    LogInv (appendChunk st data) := by
  obtain ⟨s, hs1, hs2, hmap⟩ := h
  have hmap' : (st.outputBuffer ++ [BufferEntry.mk st.nextSeq data]).map (·.seq) =
      List.range' s (st.outputBuffer ++ [BufferEntry.mk st.nextSeq data]).length := by
    simp only [List.length_append, List.length_singleton, List.map_append,
      List.map_cons, List.map_nil, hmap]
    rw [List.range'_concat]
    congr 1
    simp
    omega
  simp only [appendChunk]
  split_ifs with hclear hempty htrim
  · exact ⟨st.nextSeq + 1, by omega, by simp, by simp⟩
  · exact ⟨st.nextSeq, by omega, by simp, by simp⟩
  · have hlen : (st.outputBuffer ++ [BufferEntry.mk st.nextSeq data]).length =
        st.outputBuffer.length + 1 := by simp
    refine ⟨s + ((st.outputBuffer ++ [BufferEntry.mk st.nextSeq data]).length -
      BUFFER_TRIM_SIZE), by omega, ?_, ?_⟩
    · simp only [List.length_drop, hlen]
      have hM : (5000 : Nat) < st.outputBuffer.length + 1 := by
        simpa [MAX_BUFFER_SIZE, hlen] using htrim
      simp only [BUFFER_TRIM_SIZE]
      omega
    · simp only [List.length_drop]
      exact map_seq_drop_range' _ s _ hmap' (Nat.sub_le _ _)
  · refine ⟨s, hs1, ?_, ?_⟩
    · simp only [List.length_append, List.length_singleton]
      omega
    · exact hmap'

theorem logInv_foldl (chunks : List (List Char)) :
    ∀ st : LogState, LogInv st → LogInv (chunks.foldl appendChunk st) := by
  induction chunks with
  | nil => intro st h; simpa using h
  | cons c cs ih =>
    intro st h
    exact ih _ (logInv_appendChunk h c)

theorem map_seq_range'_chain :
    ∀ (l : List BufferEntry) (s : Nat),
      l.map (·.seq) = List.range' s l.length →
      List.Chain' (fun a b => b.seq = a.seq + 1) l := by
  intro l
  induction l with
  | nil => intro s _; simp
  | cons e t ih =>
    intro s h
    simp only [List.map_cons, List.length_cons, List.range'_succ] at h
    obtain ⟨he, ht⟩ := List.cons.inj h
    refine List.chain'_cons'.mpr ⟨?_, ih (s + 1) ht⟩
    intro b hb
    cases t with
    | nil => simp at hb
    | cons e2 t2 =>
      simp only [List.head?_cons, Option.mem_def, Option.some.injEq] at hb
      subst hb
      simp only [List.map_cons, List.length_cons, List.range'_succ] at ht
      obtain ⟨he2, _⟩ := List.cons.inj ht
      omega

/-- C1: for every sequence of output chunks appended via the PTY-data
handler (including appends that trigger a high-water trim or a clear-screen
truncation), the retained log records' sequence numbers are strictly
increasing with no gaps: each retained record's `seq` is exactly the
predecessor's `seq` plus one. -/
theorem c1_retained_seqs_strictly_increasing_gapless (chunks : List (List Char)) :
    List.Chain' (fun a b => b.seq = a.seq + 1)
      ((chunks.foldl appendChunk initLogState).outputBuffer) := by
  obtain ⟨s, _, _, hmap⟩ := logInv_foldl chunks initLogState logInv_init
  exact map_seq_range'_chain _ s hmap

/-! ### C3: clear-screen truncation -/

theorem afterLastClear_none_testClear {s : List Char}
    (h : afterLastClear s = none) : testClear s = false := by
  induction s using afterLastClear.induct with
  | case1 => simp [testClear]
  | case2 c rest rem hm =>
    rw [afterLastClear] at h
    split at h
    · exact absurd h (by simp)
    · rename_i hnone
      rw [hm] at hnone
      exact absurd hnone (by simp)
  | case3 c rest hm ih =>
    rw [afterLastClear] at h
    split at h
    · rename_i hsome
      rw [hm] at hsome
      exact absurd hsome (by simp)
    · simp [testClear, hm, ih h]

theorem testClear_afterLastClear_isSome {s : List Char}
    (h : testClear s = true) : (afterLastClear s).isSome := by
  induction s using afterLastClear.induct with
  | case1 => simp [testClear] at h
  | case2 c rest rem hm =>
    rw [afterLastClear]
    split
    · simp
    · rename_i hnone
      rw [hm] at hnone
      exact absurd hnone (by simp)
  | case3 c rest hm ih =>
    rw [afterLastClear]
    split
    · simp
    · rename_i hnone
      simp only [testClear, hnone, Option.isSome_none, Bool.false_or] at h
      exact ih h

theorem afterLastClear_decomp :
    ∀ {s a : List Char}, afterLastClear s = some a →
      ∃ p c, s = p ++ c ++ a ∧ c ∈ clearStrings ∧ testClear a = false := by
  intro s
  induction s using afterLastClear.induct with
  | case1 => intro a h; simp [afterLastClear] at h
  | case2 c rest rem hm ih =>
    intro a h
    rw [afterLastClear] at h
    split at h
    case h_2 hnone =>
      rw [hm] at hnone
      exact absurd hnone (by simp)
    case h_1 rem' hsome =>
      rw [hm] at hsome
      obtain rfl : rem = rem' := by injection hsome
      obtain ⟨cm, hcm, hdec⟩ := matchClearAt_decomp hm
      match hrec : afterLastClear rem with
      | some r =>
        rw [hrec] at h
        have har : r = a := by simpa using h
        subst har
        obtain ⟨p', c', hdec', hc', hfree⟩ := ih hrec
        refine ⟨cm ++ p', c', ?_, hc', hfree⟩
        rw [hdec, hdec']
        simp
      | none =>
        rw [hrec] at h
        have ha : a = rem := by simpa using h.symm
        refine ⟨[], cm, ?_, hcm, ?_⟩
        · rw [hdec, ha]
          simp
        · rw [ha]
          exact afterLastClear_none_testClear hrec
  | case3 c rest hm ih =>
    intro a h
    rw [afterLastClear] at h
    split at h
    case h_1 rem' hsome =>
      rw [hm] at hsome
      exact absurd hsome (by simp)
    case h_2 =>
      obtain ⟨p', c', hdec', hc', hfree⟩ := ih h
      exact ⟨c :: p', c', by rw [List.cons_append, List.cons_append, ← hdec'], hc', hfree⟩

/-- C3: appending a chunk that contains at least one clear-screen control
sequence leaves the log holding only the content of that chunk after the
last such sequence: the chunk decomposes as `p ++ c ++ a` with `c` a
clear-screen sequence and `a` clear-free, and the buffer afterwards is
exactly `[⟨seq, a⟩]` (or empty when `a` is empty); every record previously
retained is discarded.  E.g. a chunk with two clear sequences followed by
text X leaves exactly X. -/
theorem c3_clear_screen_truncates (st : LogState) (data : List Char)
    (h : testClear data = true) :
    ∃ p c a, data = p ++ c ++ a ∧ c ∈ clearStrings ∧ testClear a = false ∧
      (appendChunk st data).outputBuffer =
        (if a.isEmpty then [] else [BufferEntry.mk st.nextSeq a]) := by
  obtain ⟨a, ha⟩ := Option.isSome_iff_exists.mp (testClear_afterLastClear_isSome h)
  obtain ⟨p, c, hdec, hc, hfree⟩ := afterLastClear_decomp ha
  refine ⟨p, c, a, hdec, hc, hfree, ?_⟩
  by_cases he : a.isEmpty <;> simp [appendChunk, h, ha, he]

/-- Witness for C3 at the spec's example: the chunk `"\x1bc\x1bcX"` (two
clear sequences followed by `X`) appended to a two-record log retains
exactly the single record `⟨3, "X"⟩`. -/
theorem c3_witness :
    testClear [ESC, 'c', ESC, 'c', 'X'] = true ∧
      ∃ p c a, [ESC, 'c', ESC, 'c', 'X'] = p ++ c ++ a ∧ c ∈ clearStrings ∧
        testClear a = false ∧
        (appendChunk ⟨[⟨1, ['h', 'i']⟩, ⟨2, ['!']⟩], 3⟩
            [ESC, 'c', ESC, 'c', 'X']).outputBuffer =
          (if a.isEmpty then [] else [BufferEntry.mk 3 a]) :=
  ⟨by decide, c3_clear_screen_truncates ⟨[⟨1, ['h', 'i']⟩, ⟨2, ['!']⟩], 3⟩
    [ESC, 'c', ESC, 'c', 'X'] (by decide)⟩

/-! ### C2: reply to a first `sync{lastSeq}` message -/

inductive SyncReply where
  | historyDelta (data : List (List Char)) (lastSeq : Nat)
  | history (data : List (List Char)) (lastSeq : Nat)
  deriving Repr, DecidableEq

/-- The `sync` branch of the WebSocket message handler (web-server.ts,
first `sync` on a connection): nothing when the buffer is empty; a
`history-delta` of the entries with `seq > lastSeq` when
`lastSeq > 0 && lastSeq >= outputBuffer[0].seq` (omitted when the delta is
empty); otherwise a full `history` of the whole buffer, with `lastSeq` the
newest retained sequence number. -/
def syncReply (buf : List BufferEntry) (lastSeq : Nat) : Option SyncReply :=
  match buf with
  | [] => none
  | first :: rest =>
    if 0 < lastSeq ∧ first.seq ≤ lastSeq then
      let delta := (first :: rest).filter (fun e => lastSeq < e.seq)
      match delta.getLast? with
      | none => none
      | some lastEntry => some (.historyDelta (delta.map (·.data)) lastEntry.seq)
    else
      some (.history ((first :: rest).map (·.data))
        ((first :: rest).getLast (List.cons_ne_nil first rest)).seq)

/-- Modelled from the spec: reply to a first `sync{lastSeq}` as the spec
words it — no reply if the log is empty; a `history-delta` of exactly the
records with `seq > lastSeq` (omitted when that set is empty) when
`lastSeq` is at least the oldest retained sequence; otherwise a full
`history` of the entire retained log with `lastSeq` the newest sequence. -/
def specSyncReply (buf : List BufferEntry) (lastSeq : Nat) : Option SyncReply :=
  match buf with
  | [] => none
  | first :: rest =>
    if first.seq ≤ lastSeq then
      let delta := (first :: rest).filter (fun e => lastSeq < e.seq)
      match delta.getLast? with
      | none => none
      | some lastEntry => some (.historyDelta (delta.map (·.data)) lastEntry.seq)
    else
      some (.history ((first :: rest).map (·.data))
        ((first :: rest).getLast (List.cons_ne_nil first rest)).seq)

/-- C2: for every log whose retained sequence numbers are at least 1 (true
of every reachable log state, where numbering starts at 1), the reply the
code gives to a first `sync{lastSeq}` is exactly the reply the spec
prescribes: no reply on an empty log; a `history-delta` of exactly the
records newer than `lastSeq` (omitted when empty) when `lastSeq` is at
least the oldest retained sequence; a full `history` otherwise. -/
theorem c2_sync_reply_matches_spec (buf : List BufferEntry) (lastSeq : Nat)
    (h : ∀ e ∈ buf, 1 ≤ e.seq) :
    syncReply buf lastSeq = specSyncReply buf lastSeq := by
  cases buf with
  | nil => rfl
  | cons first rest =>
    have h1 : 1 ≤ first.seq := h first (by simp)
    by_cases hc : first.seq ≤ lastSeq
    · have h0 : 0 < lastSeq := by omega
      simp [syncReply, specSyncReply, hc, h0]
    · simp [syncReply, specSyncReply, hc]

/-- Witness for C2: a two-record log with sequences 1, 2 and `sync{1}`:
the code's reply agrees with the spec's (a delta containing only the
record with sequence 2). -/
theorem c2_witness :
    syncReply [⟨1, ['a']⟩, ⟨2, ['b']⟩] 1 = specSyncReply [⟨1, ['a']⟩, ⟨2, ['b']⟩] 1 ∧
      specSyncReply [⟨1, ['a']⟩, ⟨2, ['b']⟩] 1 = some (.historyDelta [['b']] 2) :=
  ⟨c2_sync_reply_matches_spec [⟨1, ['a']⟩, ⟨2, ['b']⟩] 1 (by decide), by decide⟩

/-! ### C4: size arbitration (`calculateMinSize` / `applyMinSize`) -/

structure WinSize where
  cols : Nat
  rows : Nat
  deriving Repr, DecidableEq

/-- `calculateMinSize` (web-server.ts): start from the local terminal size
and fold the coordinate-wise minimum over every connected client whose
declared size is positive in both dimensions. -/
def calculateMinSize (localSize : WinSize) (clients : List WinSize) : WinSize :=
  clients.foldl
    (fun acc c =>
      if 0 < c.cols ∧ 0 < c.rows then
        ⟨min acc.cols c.cols, min acc.rows c.rows⟩
      else acc)
    localSize

/-- `applyMinSize` (web-server.ts): the size handed to `resizePTY`, or
`none` when no resize is issued.  With zero connected clients the local
size is applied directly; otherwise the arbitrated minimum is applied only
if positive in both dimensions. -/
def applyMinSize (localSize : WinSize) (clients : List WinSize) : Option WinSize :=
  if clients.isEmpty then some localSize
  else
    let m := calculateMinSize localSize clients
    if 0 < m.cols ∧ 0 < m.rows then some m else none

/-- Modelled from the spec: the effective size is the coordinate-wise
minimum of the local size and every connected client's last-declared
positive size; with zero clients it is the local size alone. -/
def specEffectiveSize (localSize : WinSize) (clients : List WinSize) : WinSize :=
  let positives := clients.filter (fun c => 0 < c.cols ∧ 0 < c.rows)
  ⟨positives.foldl (fun m c => min m c.cols) localSize.cols,
   positives.foldl (fun m c => min m c.rows) localSize.rows⟩

theorem calculateMinSize_eq_spec (localSize : WinSize) (clients : List WinSize) :
    calculateMinSize localSize clients = specEffectiveSize localSize clients := by
  induction clients generalizing localSize with
  | nil => rfl
  | cons c cs ih =>
    by_cases hc : 0 < c.cols ∧ 0 < c.rows
    · simp only [calculateMinSize, List.foldl_cons, if_pos hc] at *
      simpa [specEffectiveSize, List.filter_cons, hc] using
        ih ⟨min localSize.cols c.cols, min localSize.rows c.rows⟩
    · simp only [calculateMinSize, List.foldl_cons, if_neg hc] at *
      simpa [specEffectiveSize, List.filter_cons, hc] using ih localSize

theorem calculateMinSize_pos (localSize : WinSize) (clients : List WinSize)
    (hc : 0 < localSize.cols) (hr : 0 < localSize.rows) :
    0 < (calculateMinSize localSize clients).cols ∧
      0 < (calculateMinSize localSize clients).rows := by
  induction clients generalizing localSize with
  | nil => exact ⟨hc, hr⟩
  | cons c cs ih =>
    by_cases hpos : 0 < c.cols ∧ 0 < c.rows
    · simp only [calculateMinSize, List.foldl_cons, if_pos hpos] at *
      exact ih ⟨min localSize.cols c.cols, min localSize.rows c.rows⟩
        (by simp; omega) (by simp; omega)
    · simp only [calculateMinSize, List.foldl_cons, if_neg hpos] at *
      exact ih localSize hc hr

/-- C4: for every set of connected clients and every positive local size,
size re-arbitration applies exactly the coordinate-wise minimum of the
local size and every connected client's last-declared positive size (a
resize is always issued, never suppressed), and with zero connected
clients the local size alone is applied. -/
theorem c4_effective_size_is_min (localSize : WinSize) (clients : List WinSize)
    (hc : 0 < localSize.cols) (hr : 0 < localSize.rows) :
    applyMinSize localSize clients = some (specEffectiveSize localSize clients) := by
  cases clients with
  | nil => simp [applyMinSize, specEffectiveSize]
  | cons c cs =>
    have hpos := calculateMinSize_pos localSize (c :: cs) hc hr
    rw [calculateMinSize_eq_spec] at hpos
    simp only [applyMinSize, List.isEmpty_cons, Bool.false_eq_true, if_false,
      calculateMinSize_eq_spec, if_pos hpos]

/-- Witness for C4 at the spec's example: local size (100,40) with clients
{(80,24),(120,50)} applies (80,24); after removing the (80,24) client, the
remaining client (120,50) is bounded by the local size, giving (100,40). -/
theorem c4_witness :
    applyMinSize ⟨100, 40⟩ [⟨80, 24⟩, ⟨120, 50⟩] =
        some (specEffectiveSize ⟨100, 40⟩ [⟨80, 24⟩, ⟨120, 50⟩]) ∧
      specEffectiveSize ⟨100, 40⟩ [⟨80, 24⟩, ⟨120, 50⟩] = ⟨80, 24⟩ ∧
      applyMinSize ⟨100, 40⟩ [⟨120, 50⟩] = some ⟨100, 40⟩ :=
  ⟨c4_effective_size_is_min ⟨100, 40⟩ [⟨80, 24⟩, ⟨120, 50⟩] (by decide) (by decide),
    by decide, by decide⟩

/-! ### C5/C6: the PTY supervisor (`pty.ts`)

Module state: `let ptyProcess: pty.IPty | null = null` together with the
tracked local terminal size.  Fresh OS handles returned by `pty.spawn` are
modelled by numbering spawns with `spawnCount`. -/

structure PTYHandle where
  hid : Nat
  cols : Nat
  rows : Nat
  deriving Repr, DecidableEq

structure PTYState where
  ptyProcess : Option PTYHandle
  localCols : Nat
  localRows : Nat
  spawnCount : Nat
  deriving Repr, DecidableEq

/-- `spawnPTY` (pty.ts): sets `localCols`/`localRows` from the resolved
options (`options.cols || process.stdout.columns || 80`, resolved here by
the caller) and assigns `ptyProcess = pty.spawn(...)`.  The source performs
no check of `ptyProcess` before spawning: the assignment happens
unconditionally, whatever the previous value was.  Returns the new module
state and the handle the function returns. -/
def spawnPTY (st : PTYState) (cols rows : Nat) : PTYState × PTYHandle :=
  let h : PTYHandle := ⟨st.spawnCount, cols, rows⟩
  (⟨some h, cols, rows, st.spawnCount + 1⟩, h)

/-- `resizePTY` (pty.ts): `if (ptyProcess) ptyProcess.resize(cols, rows)`.
The second component records the resize call issued to the subprocess
(`none` = no call was made). -/
def resizePTY (st : PTYState) (cols rows : Nat) :
    PTYState × Option (Nat × Nat) :=
  match st.ptyProcess with
  | some h =>
    (⟨some ⟨h.hid, cols, rows⟩, st.localCols, st.localRows, st.spawnCount⟩,
      some (cols, rows))
  | none => (st, none)

/-- Counterexample to C5: starting from a state with a live PTY (handle 0),
calling spawn does not fail fast — it succeeds and the stored handle is
replaced by the newly spawned PTY (handle 1). -/
theorem c5_counterexample :
    (⟨some ⟨0, 80, 24⟩, 80, 24, 1⟩ : PTYState).ptyProcess.isSome = true ∧
      (spawnPTY ⟨some ⟨0, 80, 24⟩, 80, 24, 1⟩ 100 30).1.ptyProcess =
        some ⟨1, 100, 30⟩ ∧
      (spawnPTY ⟨some ⟨0, 80, 24⟩, 80, 24, 1⟩ 100 30).1.ptyProcess ≠
        (⟨some ⟨0, 80, 24⟩, 80, 24, 1⟩ : PTYState).ptyProcess := by
  decide

/-- C5 (amended): calling spawn while a PTY is already live does not fail
fast: the spawn succeeds unconditionally and replaces the stored handle
with the freshly spawned PTY (the previous live PTY is neither kept nor
killed by the spawn). -/
theorem c5_spawn_replaces_live (st : PTYState) (cols rows : Nat)
    (h : st.ptyProcess.isSome = true) :
    (spawnPTY st cols rows).1.ptyProcess = some ⟨st.spawnCount, cols, rows⟩ ∧
      (spawnPTY st cols rows).2 = ⟨st.spawnCount, cols, rows⟩ :=
  ⟨rfl, rfl⟩

/-- Witness for C5 (amended) at a live state. -/
theorem c5_witness :
    (spawnPTY ⟨some ⟨0, 80, 24⟩, 80, 24, 1⟩ 100 30).1.ptyProcess =
        some ⟨1, 100, 30⟩ ∧
      (spawnPTY ⟨some ⟨0, 80, 24⟩, 80, 24, 1⟩ 100 30).2 = ⟨1, 100, 30⟩ :=
  c5_spawn_replaces_live ⟨some ⟨0, 80, 24⟩, 80, 24, 1⟩ 100 30 (by decide)

/-- Counterexample to C6: with a live PTY currently sized (80,24), a
`resize(80, 24)` request — not a positive change — is nevertheless issued
to the subprocess, so the call is not a no-op. -/
theorem c6_counterexample :
    (resizePTY ⟨some ⟨0, 80, 24⟩, 80, 24, 1⟩ 80 24).2 = some (80, 24) := by
  decide

/-- C6 (amended): `resize(cols, rows)` is a no-op exactly when no PTY is
live; when a PTY is live the resize is always issued to the subprocess
with the requested dimensions — there is no positive-change (or
positivity) check. -/
theorem c6_resize_noop_iff_dead (st : PTYState) (cols rows : Nat) :
    (st.ptyProcess = none → resizePTY st cols rows = (st, none)) ∧
      (∀ h : PTYHandle, st.ptyProcess = some h →
        (resizePTY st cols rows).2 = some (cols, rows) ∧
          (resizePTY st cols rows).1.ptyProcess = some ⟨h.hid, cols, rows⟩) := by
  constructor
  · intro h
    simp [resizePTY, h]
  · intro h hh
    simp [resizePTY, hh]

/-- Witness for C6 (amended): a dead state ignores the resize; a live
state gets the resize issued verbatim. -/
theorem c6_witness :
    resizePTY ⟨none, 80, 24, 0⟩ 10 5 = (⟨none, 80, 24, 0⟩, none) ∧
      (resizePTY ⟨some ⟨0, 80, 24⟩, 80, 24, 1⟩ 100 30).2 = some (100, 30) :=
  ⟨(c6_resize_noop_iff_dead ⟨none, 80, 24, 0⟩ 10 5).1 rfl,
    ((c6_resize_noop_iff_dead ⟨some ⟨0, 80, 24⟩, 80, 24, 1⟩ 100 30).2
      ⟨0, 80, 24⟩ rfl).1⟩

/-! ### C7: tunnel close handler and `stopTunnel` (`cloudflare-tunnel.ts`)

Callbacks registered via `onTunnelCrash` are modelled by identifiers; the
subprocess exit code `number | null` by `Option Int`. -/

structure TunnelState where
  running : Bool
  urlFound : Bool
  intentionalStop : Bool
  crashCallbacks : List Nat
  deriving Repr, DecidableEq

structure CloseEffect where
  startRejected : Bool
  crashInvocations : List (Nat × Option Int)
  deriving Repr, DecidableEq

/-- The `tunnelProcess.on('close', ...)` handler: before the URL is found
the original start promise is rejected; after the URL is found, and unless
`intentionalStop` is set, every registered crash callback is invoked once
with the exit code.  Afterwards `tunnelProcess`/`tunnelUrl` are cleared and
`intentionalStop` is reset. -/
def handleTunnelClose (st : TunnelState) (code : Option Int) :
    TunnelState × CloseEffect :=
  let eff : CloseEffect :=
    if !st.urlFound then ⟨true, []⟩
    else if !st.intentionalStop then
      ⟨false, st.crashCallbacks.map (fun cb => (cb, code))⟩
    else ⟨false, []⟩
  (⟨false, st.urlFound, false, st.crashCallbacks⟩, eff)

/-- `stopTunnel`: if a tunnel subprocess exists, set `intentionalStop`
before killing it and clear the handle; in all cases clear the registered
crash callbacks. -/
def stopTunnel (st : TunnelState) : TunnelState :=
  let st' :=
    if st.running then { st with intentionalStop := true, running := false }
    else st
  { st' with crashCallbacks := [] }

/-- `onTunnelCrash`: register a crash callback. -/
def onTunnelCrash (st : TunnelState) (cb : Nat) : TunnelState :=
  { st with crashCallbacks := st.crashCallbacks ++ [cb] }

/-- C7: on subprocess exit, the registered crash callbacks are each invoked
exactly once with the exit code if and only if the public URL had been
established and the intentional-stop flag was not set (otherwise none run);
an exit before the URL was found rejects the original start promise and
never invokes crash callbacks; and a close following an intentional
`stopTunnel` invokes zero crash callbacks. -/
theorem c7_crash_callback_contract (st : TunnelState) (code : Option Int) :
    (handleTunnelClose st code).2.crashInvocations =
        (if st.urlFound && !st.intentionalStop then
          st.crashCallbacks.map (fun cb => (cb, code))
        else []) ∧
      (handleTunnelClose st code).2.startRejected = !st.urlFound ∧
      (handleTunnelClose (stopTunnel st) code).2.crashInvocations = [] := by
  refine ⟨?_, ?_, ?_⟩ <;>
    cases hu : st.urlFound <;> cases hi : st.intentionalStop <;>
      simp [handleTunnelClose, stopTunnel, hu, hi] <;>
        cases hr : st.running <;> simp [hr] <;> split <;> rfl

/-! ### C8: idempotent `cleanup` (`session.ts`)

`let cleaningUp = false; const cleanup = () => { if (cleaningUp) return;
cleaningUp = true; killPTY(); stopWebServer(); stopTunnel();
process.exit(0); }`.  The teardown calls performed are recorded in an
ordered trace. -/

inductive TeardownAct where
  | killPTY
  | stopWebServer
  | stopTunnel
  | processExit
  deriving Repr, DecidableEq

def teardownSeq : List TeardownAct :=
  [.killPTY, .stopWebServer, .stopTunnel, .processExit]

structure SessionState where
  cleaningUp : Bool
  trace : List TeardownAct
  deriving Repr, DecidableEq

def cleanup (s : SessionState) : SessionState :=
  if s.cleaningUp then s else ⟨true, s.trace ++ teardownSeq⟩

/-- C8: the shutdown sequence is idempotent — for any number `n` of
invocations of `cleanup` (signal handler, PTY-exit callback, in any order
they all call the same guarded function on the single event loop), the
teardown body (kill PTY → stop relay → stop tunnel → terminate process)
is appended to the trace at most once: never if the guard was already set
or `n = 0`, and exactly once otherwise. -/
theorem c8_cleanup_idempotent (s : SessionState) (n : Nat) :
    (cleanup^[n] s).trace =
      s.trace ++ (if s.cleaningUp || n == 0 then [] else teardownSeq) := by
  induction n generalizing s with
  | zero => simp
  | succ n ih =>
    rw [Function.iterate_succ_apply]
    by_cases hc : s.cleaningUp
    · simp [cleanup, hc, ih]
    · simp [cleanup, hc, ih, List.append_assoc]

/-! ### C9: per-connection message rate limiting (`web-server.ts`) -/

def MSG_RATE_WINDOW_MS : Nat := 1000
def MSG_RATE_LIMIT : Nat := 100

structure RateState where
  msgCount : Nat
  msgWindowStart : Nat
  deriving Repr, DecidableEq

/-- The rate-limit check at the top of the `ws.on('message')` handler:
reset the window if it has elapsed, then increment the count; a message
beyond the limit is dropped silently (`return` — nothing is sent and the
connection is left open).  The Boolean says whether the message was
processed. -/
def rateStep (st : RateState) (now : Nat) : RateState × Bool :=
  let st1 :=
    if MSG_RATE_WINDOW_MS < now - st.msgWindowStart then RateState.mk 0 now
    else st
  let count := st1.msgCount + 1
  (⟨count, st1.msgWindowStart⟩, decide (count ≤ MSG_RATE_LIMIT))

/-- Run the rate-limit check over a sequence of message arrival times. -/
def rateRun (st : RateState) : List Nat → List Bool
  | [] => []
  | t :: ts =>
    let r := rateStep st t
    r.2 :: rateRun r.1 ts

theorem rateRun_in_window (ts : List Nat) (ws k : Nat)
    (h : ∀ t ∈ ts, t ≤ ws + MSG_RATE_WINDOW_MS) :
    rateRun ⟨k, ws⟩ ts =
      (List.range ts.length).map (fun i => decide (k + i + 1 ≤ MSG_RATE_LIMIT)) := by
  induction ts generalizing k with
  | nil => rfl
  | cons t ts ih =>
    have ht : t ≤ ws + MSG_RATE_WINDOW_MS := h t (by simp)
    have hreset : ¬ (MSG_RATE_WINDOW_MS < t - ws) := by omega
    have htail : ∀ t' ∈ ts, t' ≤ ws + MSG_RATE_WINDOW_MS := by
      intro t' ht'
      exact h t' (by simp [ht'])
    simp only [rateRun, rateStep, if_neg hreset, List.length_cons,
      List.range_succ_eq_map, List.map_cons, List.map_map]
    refine congrArg₂ List.cons (by simp) ?_
    rw [ih (k + 1) htail]
    apply List.map_congr_left
    intro i _
    have he : k + 1 + i + 1 = k + (i + 1) + 1 := by omega
    simp [Function.comp, he]

/-- C9: for every connection, among `MSG_RATE_LIMIT + 1` messages all
arriving within one rate window, exactly the first `MSG_RATE_LIMIT` are
processed and the last is dropped (silently: the drop path sends nothing
and does not close the connection). -/
theorem c9_rate_limit (ts : List Nat) (ws : Nat)
    (hlen : ts.length = MSG_RATE_LIMIT + 1)
    (h : ∀ t ∈ ts, t ≤ ws + MSG_RATE_WINDOW_MS) :
    rateRun ⟨0, ws⟩ ts = List.replicate MSG_RATE_LIMIT true ++ [false] := by
  rw [rateRun_in_window ts ws 0 h, hlen]
  decide

/-- Witness for C9: 101 messages all arriving at the window start are
processed as 100 accepts followed by one silent drop. -/
theorem c9_witness :
    rateRun ⟨0, 0⟩ (List.replicate (MSG_RATE_LIMIT + 1) 0) =
      List.replicate MSG_RATE_LIMIT true ++ [false] :=
  c9_rate_limit _ 0 (by simp)
    (by
      intro t ht
      have := List.eq_of_mem_replicate ht
      omega)

/-! ### C10: `safeEqual` (`web-server.ts`)

JS strings are modelled as their sequences of code units (`List Nat`);
`Buffer.alloc` produces a zero-filled buffer and `buf.write` copies the
string's bytes into it, truncating at the buffer's capacity. -/

def bufferWrite (s : List Nat) (len : Nat) : List Nat :=
  s.take len ++ List.replicate (len - s.length) 0

/-- `safeEqual`: pad both operands into zero-filled buffers of length
`max(a.length, b.length, 1)`, compare the equal-length buffers byte-wise
(`crypto.timingSafeEqual`), and require the original lengths to also be
equal. -/
def safeEqual (a b : List Nat) : Bool :=
  let maxLen := max (max a.length b.length) 1
  let aBuf := bufferWrite a maxLen
  let bBuf := bufferWrite b maxLen
  (aBuf == bBuf) && (a.length == b.length)

/-- C10: for every pair of strings of unequal length, `safeEqual` returns
`false` — even though both operands are padded into equal-length buffers
before the byte comparison (where a zero-extended operand would compare
byte-equal), the final length check rejects — so a candidate token that is
a strict prefix or extension of the real token never authenticates. -/
theorem c10_safeEqual_unequal_length (a b : List Nat)
    (h : a.length ≠ b.length) : safeEqual a b = false := by
  simp [safeEqual, h]

/-- Witness for C10: a 4-byte token against a 5-byte extension of it. -/
theorem c10_witness : safeEqual [9, 8, 7, 6] [9, 8, 7, 6, 5] = false :=
  c10_safeEqual_unequal_length [9, 8, 7, 6] [9, 8, 7, 6, 5] (by decide)

end GoGoGo
